import Mathlib

/-!
Verification of the billboard display driver (`billboard.py`) against its
natural-language specification.  The Python source is shallowly embedded:
times of day become naturals, PIL images become lists of pixel rows or
pixel lists, the socket layer is modelled by the exact byte sequence
written, and the stateful main loop becomes explicit state passing
(recency queue as a `List Nat`).  Fallible operations return `Option` or
`Except`, mirroring Python exceptions.
-/

namespace Billboard

/-- Embeds `is_nighttime` (billboard.py lines 38-42).  Times of day are
naturals (e.g. minutes since midnight); `datetime.time` comparison is a
linear order, which the embedding preserves.  The body mirrors
`not (start <= now < end) if start < end else not (now >= start or now < end)`. -/
def is_nighttime (startT endT now : Nat) : Bool :=
  if startT < endT then ! (decide (startT ≤ now) && decide (now < endT))
  else ! (decide (now ≥ startT) || decide (now < endT))

/-- A source entry (billboard.py lines 217-227): either a bare path string or a
structured record (Python dict) with optional `path`, `shares`, `display_time`
and `crop` keys.  `none` models an absent key. -/
inductive SourceEntry : Type where
  | str : String → SourceEntry
  | dict : Option String → Option Nat → Option Nat → Option Bool → SourceEntry
deriving DecidableEq

/-- Selection weight of one entry (billboard.py line 209):
`s.get('shares', 1) if isinstance(s, dict) else 1`. -/
def weight : SourceEntry → Nat
  | .str _ => 1
  | .dict _ sh _ _ => sh.getD 1

/-- Embeds `[s.get('shares', None) for s in sources if isinstance(s, dict)]`
(billboard.py line 192). -/
def declaredShares (sources : List SourceEntry) : List (Option Nat) :=
  sources.filterMap fun s => match s with
    | .dict _ sh _ _ => some sh
    | .str _ => none

/-- Embeds `sum(s for s in defined_shares if s is not None)` (billboard.py line 194). -/
def totalDefined (sources : List SourceEntry) : Nat :=
  ((declaredShares sources).filterMap id).sum

/-- Embeds the shares-defaulting block (billboard.py lines 192-202).  The Python
code mutates the entries in place; the embedding returns the updated list.
If any structured entry declares shares, structured entries without shares get
`max(total_defined // num_sources, 1)`; otherwise every structured entry gets
`shares` defaulted to 1 via `setdefault`. -/
def assignShares (sources : List SourceEntry) : List SourceEntry :=
  if (declaredShares sources).any (fun s => s.isSome) then
    sources.map fun s => match s with
      | .dict p none dt cr =>
          .dict p (some (max (totalDefined sources / sources.length) 1)) dt cr
      | s => s
  else
    sources.map fun s => match s with
      | .dict p none dt cr => .dict p (some 1) dt cr
      | s => s

/-- Python's `enumerate`, starting at `n`. -/
def enumFromIdx (n : Nat) : List α → List (Nat × α)
  | [] => []
  | x :: xs => (n, x) :: enumFromIdx (n + 1) xs

/-- Embeds `[(i, s) for i, s in enumerate(sources) if i not in recent_queue]`,
the indexed form of billboard.py line 204. -/
def availablePairs (sources : List SourceEntry) (queue : List Nat) :
    List (Nat × SourceEntry) :=
  (enumFromIdx 0 sources).filter fun p => decide (p.1 ∉ queue)

/-- Embeds `available_sources` (billboard.py line 204). -/
def availableSources (sources : List SourceEntry) (queue : List Nat) :
    List SourceEntry :=
  (availablePairs sources queue).map Prod.snd

/-- Embeds `deque(maxlen=k).append(x)` (billboard.py lines 163 and 212): append
on the right, dropping from the left when over capacity `k`. -/
def dequeAppend (k : Nat) (q : List Nat) (x : Nat) : List Nat :=
  let q2 := q ++ [x]
  if k < q2.length then q2.drop (q2.length - k) else q2

/-- Embeds Python's `list.index` (billboard.py line 211): position of the first
entry equal to `a` (length if absent; the caller always passes a member). -/
def list_index (a : SourceEntry) : List SourceEntry → Nat
  | [] => 0
  | x :: xs => if x = a then 0 else list_index a xs + 1

/-- One random-mode selection (billboard.py lines 204-212).  `choice` resolves
the randomness of `random.choices`: the drawn element is the candidate at
position `choice % len(candidates)` (an over-approximation of the weighted
draw, adequate for the safety properties proved below).  `random.choices`
raises `ValueError` when the total weight is zero (in particular when the
candidate list is empty), modelled by `Except.error`. -/
def selectStep (k : Nat) (sources : List SourceEntry) (queue : List Nat)
    (choice : Nat) : Except String (SourceEntry × Nat × List Nat) :=
  let avail := availableSources sources queue
  let availQueue := if avail.isEmpty then (sources, ([] : List Nat)) else (avail, queue)
  if (availQueue.1.map weight).sum = 0 then
    Except.error "ValueError: total of weights must be greater than zero"
  else
    let selected := availQueue.1.getD (choice % availQueue.1.length) (SourceEntry.str "")
    let idx := list_index selected sources
    Except.ok (selected, idx, dequeAppend k availQueue.2 idx)

/-- Iterates `selectStep` over a list of choices, returning the sequence of
recorded source indices (billboard.py lines 204-212 executed once per cycle).
An error stops the run (the Python process would die there). -/
def runSelect (k : Nat) (sources : List SourceEntry) :
    List Nat → List Nat → List Nat
  | _, [] => []
  | queue, c :: cs =>
    match selectStep k sources queue c with
    | Except.error _ => []
    | Except.ok (_, idx, q2) => idx :: runSelect k sources q2 cs

/-- The last `k` elements of a list (specification device for the deque). -/
def lastN (k : Nat) (l : List Nat) : List Nat := l.drop (l.length - k)

/-- Embeds the dispatch comprehension (billboard.py lines 174-186 and 236-248):
`[executor.submit(send_image, parts[i], ..., ip) for i, ip in enumerate(targets)]`.
`parts[i]` with `i` out of range raises `IndexError`, modelled by `none`;
otherwise the list of `(frame, target)` pairs submitted is returned.  `i` is
the running enumerate counter. -/
def buildDispatch (parts : List α) : List β → Nat → Option (List (α × β))
  | [], _ => some []
  | t :: ts, i =>
    match parts[i]? with
    | none => none
    | some p =>
      match buildDispatch parts ts (i + 1) with
      | none => none
      | some rest => some ((p, t) :: rest)

/-- Dispatch of the six frames to the target list, starting the enumerate
counter at 0. -/
def dispatchAll (parts : List α) (targets : List β) : Option (List (α × β)) :=
  buildDispatch parts targets 0

/-- A source pixel: red, green, blue and alpha channels.  `img.convert('RGB')`
(billboard.py line 116) drops the alpha channel without compositing. -/
structure RGBA where
  r : Nat
  g : Nat
  b : Nat
  a : Nat
deriving DecidableEq

/-- Embeds `image_to_raw_pixels` (billboard.py lines 114-124): for each pixel
in row-major order append `r, g, b, 255` (alpha forced opaque, source alpha
discarded by the RGB conversion). -/
def image_to_raw_pixels (pixels : List RGBA) : List Nat :=
  (pixels.map fun p => [p.r, p.g, p.b, 255]).flatten

/-- The 11 ASCII bytes of the literal `b"multiverse:"` (billboard.py line 142). -/
def multiverseHeader : List Nat :=
  [109, 117, 108, 116, 105, 118, 101, 114, 115, 101, 58]

/-- Embeds `struct.pack('!I', n)`: the four big-endian bytes of `n`. -/
def beUInt32 (n : Nat) : List Nat :=
  [n / 16777216 % 256, n / 65536 % 256, n / 256 % 256, n % 256]

/-- The numeric value of a big-endian byte string (specification device). -/
def beValue (bytes : List Nat) : Nat := bytes.foldl (fun acc b => 256 * acc + b) 0

/-- Embeds `send_image` (billboard.py lines 127-148) as the byte sequence
written to the socket: header `b"multiverse:" + struct.pack('!I', data_size)
+ command` followed by the raw payload.  A command whose length is not 4 is
rejected before anything is sent (`none`). -/
def send_image (pixels : List RGBA) (command : List Nat) : Option (List Nat) :=
  let raw := image_to_raw_pixels pixels
  if command.length ≠ 4 then none
  else some (multiverseHeader ++ beUInt32 raw.length ++ command ++ raw)

/-- Embeds the slicing stage of `split_image` (billboard.py lines 105-111) on
the row list of the already resized/cropped image: `slice_height = height // 6`
and part `i` is the crop box `(0, i*slice_height, width, (i+1)*slice_height)`,
i.e. rows `i*slice_height` up to `(i+1)*slice_height`. -/
def split_image (rows : List α) (height : Nat) : List (List α) :=
  let sliceHeight := height / 6
  (List.range 6).map fun i => (rows.drop (i * sliceHeight)).take sliceHeight

/-- Embeds the day-branch source loop (billboard.py lines 217-250): each entry
is loaded and transformed by `split_image`; a failure (`none`, the Python
`except` at line 232) skips the entry via `continue`, a success dispatches its
frames.  The result is the list of frame sets dispatched during the cycle. -/
def dayCycleDispatches (load : SourceEntry → Option α) : List SourceEntry → List α
  | [] => []
  | e :: es =>
    match load e with
    | none => dayCycleDispatches load es
    | some frames => frames :: dayCycleDispatches load es

/-- The remote-override whitelist (billboard.py line 28), verbatim. -/
def whitelistKeys : List String :=
  ["active_start", "active_end", "sources", "random", "no_repeat_window",
   "width", "height", "crop", "crop_origin"]

/-- One iteration of the merge loop (billboard.py lines 29-30):
`if key in remote_config: config[key] = remote_config[key]`.  Configurations
are modelled as partial maps from key to value. -/
def overwriteKey (remote : String → Option α) (config : String → Option α)
    (key : String) : String → Option α :=
  match remote key with
  | some v => fun q => if q = key then some v else config q
  | none => config

/-- Embeds the remote-configuration merge (billboard.py lines 28-30): fold the
overwrite step over the whitelist. -/
def mergeRemote (config remote : String → Option α) : String → Option α :=
  whitelistKeys.foldl (overwriteKey remote) config

/-! ## C1: the night test -/

/-- C1 (amended): for `start < end`, `is_nighttime` is true exactly when `now`
lies outside the half-open interval `[start, end)`; for `start ≥ end` it is
true exactly when `not (now ≥ start or now < end)`; a time equal to `start` is
never night; a time equal to `end` is night provided `start ≠ end`; and in the
degenerate case `start = end` the function returns false (daytime) for every
`now`, so `end` itself is then daytime. -/
theorem c1_night_interval (startT endT now : Nat) :
    (startT < endT →
      (is_nighttime startT endT now = true ↔ ¬ (startT ≤ now ∧ now < endT))) ∧
    (endT ≤ startT →
      (is_nighttime startT endT now = true ↔ ¬ (now ≥ startT ∨ now < endT))) ∧
    (now = startT → is_nighttime startT endT now = false) ∧
    (now = endT → startT ≠ endT → is_nighttime startT endT now = true) ∧
    (startT = endT → is_nighttime startT endT now = false) := by
  unfold is_nighttime
  by_cases h : startT < endT <;> simp [h] <;> omega

/-- C1 counterexample to the claim as stated: with `start = end = now = 600`
(the wrap branch, since `start ≥ end`), the code returns false, i.e. a time
exactly equal to `end` is daytime here, while the claim says a time equal to
`end` is always night. -/
theorem c1_counterexample : is_nighttime 600 600 600 = false := by decide

/-- C1 witness: at 08:00-23:00 (480 and 1380 minutes), 480 itself is daytime;
with the wrapped window 23:00-08:00, 08:00 (= `end`) is night. -/
theorem c1_witness :
    is_nighttime 480 1380 480 = false ∧ is_nighttime 1380 480 480 = true :=
  ⟨(c1_night_interval 480 1380 480).2.2.1 rfl,
   (c1_night_interval 1380 480 480).2.2.2.1 rfl (by decide)⟩

/-! ## C2: dispatch truncation -/

/-- When every index the comprehension touches is in range, the submitted pairs
are `(parts[i+j], ts[j])` in order. -/
theorem buildDispatch_some (parts : List α) :
    ∀ (ts : List β) (i : Nat), i + ts.length ≤ parts.length →
      ∃ l, buildDispatch parts ts i = some l ∧ l.length = ts.length ∧
        ∀ j, j < ts.length →
          ∃ p t, parts[i + j]? = some p ∧ ts[j]? = some t ∧ l[j]? = some (p, t) := by
  intro ts
  induction ts with
  | nil => intro i _; exact ⟨[], rfl, rfl, fun j hj => by simp at hj⟩
  | cons t ts ih =>
    intro i hi
    have hip : i < parts.length := by simp at hi; omega
    obtain ⟨rest, hrest, hlen, hget⟩ := ih (i + 1) (by simp at hi; omega)
    refine ⟨(parts.get ⟨i, hip⟩, t) :: rest, ?_, by simp [hlen], ?_⟩
    · simp [buildDispatch, List.getElem?_eq_getElem hip, hrest]
    · intro j hj
      cases j with
      | zero =>
        exact ⟨parts.get ⟨i, hip⟩, t, by simp [List.getElem?_eq_getElem hip], by simp, by simp⟩
      | succ j =>
        obtain ⟨p, t', h1, h2, h3⟩ := hget j (by simp at hj; omega)
        refine ⟨p, t', by rw [show i + (j + 1) = i + 1 + j by omega]; exact h1, ?_, ?_⟩
        · simpa using h2
        · simpa using h3

/-- When the target list overruns the frame list, the comprehension hits an
out-of-range `parts[i]` and fails. -/
theorem buildDispatch_none (parts : List α) :
    ∀ (ts : List β) (i : Nat), ts ≠ [] → parts.length < i + ts.length →
      buildDispatch parts ts i = none := by
  intro ts
  induction ts with
  | nil => intro i h _; exact absurd rfl h
  | cons t ts ih =>
    intro i _ hlen
    rw [buildDispatch]
    cases hpi : parts[i]? with
    | none => rfl
    | some p =>
      have hip : i < parts.length := by
        by_contra hcon
        rw [List.getElem?_eq_none (by omega)] at hpi
        exact Option.noConfusion hpi
      cases ts with
      | nil => simp at hlen; omega
      | cons t2 ts2 =>
        rw [ih (i + 1) (by simp) (by simp at hlen ⊢; omega)]

/-- C2 (amended): when the target count is at most the frame count, dispatch
submits frame `i` paired with target `i` for every `i < len(targets)` and
completes (extra frames are ignored).  When there are more targets than frames
(in particular `N > 6` with the six frames of a cycle), the comprehension
evaluates an out-of-range `parts[i]` and fails with `IndexError` instead of
truncating. -/
theorem c2_dispatch_truncation (parts : List α) (targets : List β) :
    (targets.length ≤ parts.length →
      ∃ l, dispatchAll parts targets = some l ∧ l.length = targets.length ∧
        ∀ j, j < targets.length →
          ∃ p t, parts[j]? = some p ∧ targets[j]? = some t ∧ l[j]? = some (p, t)) ∧
    (parts.length < targets.length → dispatchAll parts targets = none) := by
  constructor
  · intro h
    obtain ⟨l, h1, h2, h3⟩ := buildDispatch_some parts targets 0 (by omega)
    refine ⟨l, h1, h2, fun j hj => ?_⟩
    obtain ⟨p, t, hp, ht, hl⟩ := h3 j hj
    exact ⟨p, t, by simpa using hp, ht, hl⟩
  · intro h
    have hne : targets ≠ [] := by
      intro hcon; rw [hcon] at h; simp at h
    exact buildDispatch_none parts targets 0 hne (by omega)

/-- C2 counterexample to the claim as stated: with the six frames of a cycle
and seven targets, dispatch does not complete — `parts[6]` raises `IndexError`
(modelled as `none`) — whereas the claim says a count mismatch is truncated
and dispatch also completes when `N > 6`. -/
theorem c2_counterexample :
    dispatchAll (List.range 6) (List.range 7) = none := by decide

/-- C2 witness: three frames, two targets — dispatch completes and sends frame
`i` to target `i` for `i < 2`. -/
theorem c2_witness :
    ((2 : Nat) ≤ 3 ∧
      ∃ l, dispatchAll [10, 20, 30] [5, 6] = some l ∧ l.length = 2 ∧
        ∀ j, j < 2 →
          ∃ p t, [10, 20, 30][j]? = some p ∧ [5, 6][j]? = some t ∧
            l[j]? = some (p, t)) :=
  ⟨by decide, (c2_dispatch_truncation [10, 20, 30] [5, 6]).1 (by decide)⟩

/-! ## C3: the wire format -/

/-- Four payload bytes per pixel. -/
theorem image_to_raw_pixels_length (pixels : List RGBA) :
    (image_to_raw_pixels pixels).length = 4 * pixels.length := by
  induction pixels with
  | nil => rfl
  | cons p ps ih =>
    show ([p.r, p.g, p.b, 255] ++ image_to_raw_pixels ps).length = _
    simp only [List.length_append, List.length_cons, ih]
    simp
    omega

/-- Payload bytes of pixel `i` sit at offsets `4*i .. 4*i+3`, in R, G, B order
with the alpha byte forced to 255. -/
theorem image_to_raw_pixels_get (pixels : List RGBA) :
    ∀ i, (hi : i < pixels.length) →
      (image_to_raw_pixels pixels)[4 * i]? = some (pixels.get ⟨i, hi⟩).r ∧
      (image_to_raw_pixels pixels)[4 * i + 1]? = some (pixels.get ⟨i, hi⟩).g ∧
      (image_to_raw_pixels pixels)[4 * i + 2]? = some (pixels.get ⟨i, hi⟩).b ∧
      (image_to_raw_pixels pixels)[4 * i + 3]? = some 255 := by
  induction pixels with
  | nil => intro i hi; simp at hi
  | cons p ps ih =>
    intro i hi
    cases i with
    | zero =>
      refine ⟨?_, ?_, ?_, ?_⟩ <;>
        · show ([p.r, p.g, p.b, 255] ++ image_to_raw_pixels ps)[_]? = _
          simp
    | succ i =>
      have hi2 : i < ps.length := by simp at hi; omega
      have key : ∀ j, (image_to_raw_pixels (p :: ps))[4 + j]? =
          (image_to_raw_pixels ps)[j]? := by
        intro j
        show ([p.r, p.g, p.b, 255] ++ image_to_raw_pixels ps)[4 + j]? = _
        rw [List.getElem?_append_right
          (show ([p.r, p.g, p.b, 255] : List Nat).length ≤ 4 + j by simp)]
        simp
      obtain ⟨h1, h2, h3, h4⟩ := ih i hi2
      refine ⟨?_, ?_, ?_, ?_⟩
      · rw [show 4 * (i + 1) = 4 + 4 * i by omega, key]
        simpa using h1
      · rw [show 4 * (i + 1) + 1 = 4 + (4 * i + 1) by omega, key]
        simpa using h2
      · rw [show 4 * (i + 1) + 2 = 4 + (4 * i + 2) by omega, key]
        simpa using h3
      · rw [show 4 * (i + 1) + 3 = 4 + (4 * i + 3) by omega, key]
        simpa using h4

/-- The four big-endian header bytes decode back to `n` for any `n` that fits
in 32 bits (`struct.pack('!I', n)` raises beyond that). -/
theorem beValue_beUInt32 (n : Nat) (h : n < 4294967296) :
    beValue (beUInt32 n) = n := by
  simp only [beValue, beUInt32, List.foldl]
  omega

/-- C3: for a frame given as its row-major pixel list (of size `w * h`) and a
4-byte command tag, the bytes written are exactly the 11 ASCII bytes of
`"multiverse:"`, then the big-endian uint32 of the payload length `4*w*h`,
then the 4 tag bytes, then the payload, in which pixel `i` contributes bytes
`R, G, B, 255` at offsets `4*i .. 4*i+3` — the alpha byte is 255 regardless of
the source pixel's alpha. -/
theorem c3_wire_format (pixels : List RGBA) (w h : Nat) (command : List Nat)
    (hwh : pixels.length = w * h) (hcmd : command.length = 4) :
    send_image pixels command =
      some (multiverseHeader ++ beUInt32 (4 * (w * h)) ++ command ++
        image_to_raw_pixels pixels) ∧
    multiverseHeader.length = 11 ∧
    (image_to_raw_pixels pixels).length = 4 * (w * h) ∧
    (4 * (w * h) < 4294967296 → beValue (beUInt32 (4 * (w * h))) = 4 * (w * h)) ∧
    (∀ i, (hi : i < pixels.length) →
      (image_to_raw_pixels pixels)[4 * i]? = some (pixels.get ⟨i, hi⟩).r ∧
      (image_to_raw_pixels pixels)[4 * i + 1]? = some (pixels.get ⟨i, hi⟩).g ∧
      (image_to_raw_pixels pixels)[4 * i + 2]? = some (pixels.get ⟨i, hi⟩).b ∧
      (image_to_raw_pixels pixels)[4 * i + 3]? = some 255) := by
  have hlen := image_to_raw_pixels_length pixels
  refine ⟨?_, rfl, by omega, fun h32 => beValue_beUInt32 _ h32,
    image_to_raw_pixels_get pixels⟩
  simp [send_image, hcmd, hlen, hwh]

/-- C3 witness: a single pixel with a transparent source alpha and the `sdat`
tag produce exactly the specified byte stream. -/
theorem c3_witness :
    [RGBA.mk 1 2 3 7].length = 1 * 1 ∧
    [(115 : Nat), 100, 97, 116].length = 4 ∧
    send_image [RGBA.mk 1 2 3 7] [115, 100, 97, 116] =
      some (multiverseHeader ++ beUInt32 (4 * (1 * 1)) ++ [115, 100, 97, 116] ++
        image_to_raw_pixels [RGBA.mk 1 2 3 7]) :=
  ⟨by decide, by decide,
    (c3_wire_format [RGBA.mk 1 2 3 7] 1 1 [115, 100, 97, 116]
      (by decide) (by decide)).1⟩

/-! ## C4: the slicing invariant -/

/-- Cutting a list of length `n * m` into `n` consecutive chunks of `m` and
concatenating them gives the list back. -/
theorem flatten_slices : ∀ (n m : Nat) (l : List α), l.length = n * m →
    ((List.range n).map fun i => (l.drop (i * m)).take m).flatten = l := by
  intro n
  induction n with
  | zero =>
    intro m l hl
    have : l = [] := List.eq_nil_of_length_eq_zero (by omega)
    simp [this]
  | succ n ih =>
    intro m l hl
    rw [List.range_succ_eq_map]
    simp only [List.map_cons, List.map_map, List.flatten_cons]
    have h1 : (l.drop (0 * m)).take m = l.take m := by simp
    have h2 : (List.range n).map ((fun i => (l.drop (i * m)).take m) ∘ Nat.succ) =
        (List.range n).map fun i => ((l.drop m).drop (i * m)).take m := by
      refine List.map_congr_left fun i _ => ?_
      simp only [Function.comp_apply, List.drop_drop]
      congr 2
      rw [Nat.succ_mul]
      omega
    rw [h1, h2, ih m (l.drop m) (by rw [List.length_drop, hl, Nat.succ_mul]; omega)]
    exact List.take_append_drop m l

/-- C4: with the height divisible by 6, slicing produces exactly 6 frames,
each of height `h / 6` and full width, and concatenating their rows
top-to-bottom (band 0 first) reconstructs the image exactly. -/
theorem c4_slicing (rows : List (List γ)) (w h : Nat)
    (hlen : rows.length = h) (hdiv : h % 6 = 0)
    (hw : ∀ r ∈ rows, r.length = w) :
    (split_image rows h).length = 6 ∧
    (∀ part ∈ split_image rows h, part.length = h / 6 ∧ ∀ r ∈ part, r.length = w) ∧
    (split_image rows h).flatten = rows := by
  obtain ⟨m, hm⟩ : ∃ m, h = 6 * m := ⟨h / 6, by omega⟩
  have hm6 : h / 6 = m := by omega
  refine ⟨by simp [split_image], ?_, ?_⟩
  · intro part hpart
    simp only [split_image, List.mem_map, List.mem_range] at hpart
    obtain ⟨i, hi, rfl⟩ := hpart
    constructor
    · rw [List.length_take, List.length_drop, hlen, hm6, hm]
      have him : i * m ≤ 5 * m := Nat.mul_le_mul (by omega) (Nat.le_refl m)
      omega
    · intro r hr
      exact hw r (List.mem_of_mem_drop (List.mem_of_mem_take hr))
  · simp only [split_image]
    rw [hm6]
    exact flatten_slices 6 m rows (by omega)

/-- C4 witness: a 1×6 image splits into six 1-row bands which concatenate back
to the image. -/
theorem c4_witness :
    ([[1], [2], [3], [4], [5], [6]] : List (List Nat)).length = 6 ∧ 6 % 6 = 0 ∧
    (split_image ([[1], [2], [3], [4], [5], [6]] : List (List Nat)) 6).flatten =
      [[1], [2], [3], [4], [5], [6]] :=
  ⟨by decide, by decide,
    (c4_slicing [[1], [2], [3], [4], [5], [6]] 1 6 (by decide) (by decide)
      (by decide)).2.2⟩

/-! ## C5 and C10: shares defaulting and entry stability -/

/-- C5: in randomized mode, when at least one structured entry declares
shares, every structured entry without an explicit shares value receives the
default `max(total_declared // len(sources), 1)` (with `len(sources)` counting
the full list, bare strings included) and declared shares are kept; when no
entry declares shares, structured entries get weight 1; and a bare string
entry always has selection weight 1. -/
theorem c5_shares_defaulting (sources : List SourceEntry) (i : Nat) :
    ((declaredShares sources).any (fun s => s.isSome) = true →
      (∀ p dt cr, sources[i]? = some (SourceEntry.dict p none dt cr) →
        (assignShares sources)[i]? =
          some (SourceEntry.dict p
            (some (max (totalDefined sources / sources.length) 1)) dt cr)) ∧
      (∀ p n dt cr, sources[i]? = some (SourceEntry.dict p (some n) dt cr) →
        (assignShares sources)[i]? = some (SourceEntry.dict p (some n) dt cr))) ∧
    ((declaredShares sources).any (fun s => s.isSome) = false →
      (∀ p dt cr, sources[i]? = some (SourceEntry.dict p none dt cr) →
        (assignShares sources)[i]? = some (SourceEntry.dict p (some 1) dt cr)) ∧
      (∀ p n dt cr, sources[i]? = some (SourceEntry.dict p (some n) dt cr) →
        (assignShares sources)[i]? = some (SourceEntry.dict p (some n) dt cr))) ∧
    (∀ pa, weight (SourceEntry.str pa) = 1) := by
  refine ⟨fun hany => ⟨fun p dt cr h => ?_, fun p n dt cr h => ?_⟩,
    fun hnone => ⟨fun p dt cr h => ?_, fun p n dt cr h => ?_⟩, fun pa => rfl⟩
  · simp [assignShares, hany, h]
  · simp [assignShares, hany, h]
  · simp only [assignShares, hnone, Bool.false_eq_true, if_false]
    simp [h]
  · simp only [assignShares, hnone, Bool.false_eq_true, if_false]
    simp [h]

/-- No entry of an `assignShares` result is a structured entry without shares:
the defaulting pass fills every absent shares value. -/
theorem assignShares_fills (sources : List SourceEntry) :
    ∀ s ∈ assignShares sources, ∀ p dt cr, s ≠ SourceEntry.dict p none dt cr := by
  intro s hs p dt cr
  unfold assignShares at hs
  split at hs <;>
  · obtain ⟨a, _, rfl⟩ := List.mem_map.mp hs
    cases a with
    | str q => simp
    | dict q sh dt2 cr2 => cases sh <;> simp

/-- A list without shares-less structured entries is a fixed point of the
defaulting pass. -/
theorem assignShares_eq_self (l : List SourceEntry)
    (h : ∀ s ∈ l, ∀ p dt cr, s ≠ SourceEntry.dict p none dt cr) :
    assignShares l = l := by
  unfold assignShares
  split <;>
  · refine (List.map_congr_left fun a ha => ?_).trans (List.map_id l)
    cases a with
    | str q => rfl
    | dict q sh dt cr =>
      cases sh with
      | none => exact absurd rfl (h _ ha q dt cr)
      | some n => rfl

/-- C10 (amended): the shares-defaulting pass of a randomized cycle preserves
the list length and order, keeps bare strings and every explicitly declared
shares value (and all other record fields) unchanged, but DOES write a shares
value into structured entries that lacked one; after that first pass the
entries are stable (the pass is idempotent), so only the first randomized
cycle mutates the source list. -/
theorem c10_entry_stability (sources : List SourceEntry) :
    (assignShares sources).length = sources.length ∧
    (∀ (i : Nat) (pa : String), sources[i]? = some (SourceEntry.str pa) →
      (assignShares sources)[i]? = some (SourceEntry.str pa)) ∧
    (∀ (i n : Nat) (p : Option String) (dt : Option Nat) (cr : Option Bool),
      sources[i]? = some (SourceEntry.dict p (some n) dt cr) →
      (assignShares sources)[i]? = some (SourceEntry.dict p (some n) dt cr)) ∧
    (∀ (i : Nat) (p : Option String) (dt : Option Nat) (cr : Option Bool),
      sources[i]? = some (SourceEntry.dict p none dt cr) →
      ∃ m : Nat,
        (assignShares sources)[i]? = some (SourceEntry.dict p (some m) dt cr)) ∧
    assignShares (assignShares sources) = assignShares sources := by
  refine ⟨?_, fun i pa h => ?_, fun i n p dt cr h => ?_, fun i p dt cr h => ?_,
    assignShares_eq_self _ (assignShares_fills sources)⟩
  · unfold assignShares; split <;> simp
  · unfold assignShares; split <;> simp [h]
  · unfold assignShares; split <;> simp [h]
  · unfold assignShares
    split
    · exact ⟨max (totalDefined sources / sources.length) 1, by simp [h]⟩
    · exact ⟨1, by simp [h]⟩

/-- C10 counterexample to the claim as stated: a cycle's shares-defaulting
step changes a structured entry that lacked shares — the entries are not the
same after the cycle as before it. -/
theorem c10_counterexample :
    assignShares [SourceEntry.dict (some "a") none none none,
      SourceEntry.dict (some "b") (some 5) none none] ≠
      [SourceEntry.dict (some "a") none none none,
        SourceEntry.dict (some "b") (some 5) none none] := by decide

/-- C5 witness: with declared shares `[5]` over three entries the shares-less
structured entry receives `max(5 // 3, 1) = 1`. -/
theorem c5_witness :
    (assignShares [SourceEntry.dict (some "a") none none none,
        SourceEntry.dict (some "b") (some 5) none none, SourceEntry.str "c"])[0]? =
      some (SourceEntry.dict (some "a")
        (some (max (totalDefined [SourceEntry.dict (some "a") none none none,
            SourceEntry.dict (some "b") (some 5) none none, SourceEntry.str "c"] /
          ([SourceEntry.dict (some "a") none none none,
            SourceEntry.dict (some "b") (some 5) none none,
            SourceEntry.str "c"] : List SourceEntry).length) 1)) none none) :=
  ((c5_shares_defaulting _ 0).1 (by decide)).1 (some "a") none none (by decide)

/-- C10 witness: the shares-less entry gains some shares value while its other
fields survive. -/
theorem c10_witness :
    ∃ m, (assignShares [SourceEntry.dict (some "a") none none none,
      SourceEntry.dict (some "b") (some 5) none none])[0]? =
        some (SourceEntry.dict (some "a") (some m) none none) :=
  (c10_entry_stability _).2.2.2.1 0 (some "a") none none (by decide)

/-! ## C7: behaviour of a day cycle when sources fail -/

/-- C7 (amended): a failing source is skipped (`continue`) and the cycle
dispatches exactly the successfully transformed sources; in particular the
cycle dispatches nothing at all exactly when every selected candidate fails —
there is no fallback-logo or solid-black fallback in the day branch. -/
theorem c7_all_fail_no_dispatch (load : SourceEntry → Option α)
    (entries : List SourceEntry) :
    dayCycleDispatches load entries = [] ↔ ∀ e ∈ entries, load e = none := by
  induction entries with
  | nil => simp [dayCycleDispatches]
  | cons e es ih =>
    rw [dayCycleDispatches]
    cases hl : load e with
    | none => simp [hl, ih]
    | some frames => simp [hl]

/-- C7 counterexample to the claim as stated: a cycle in which the only
candidate fails dispatches no frames at all — there is no fallback logo and
no black-frame fallback — while the claim says such a cycle still dispatches
some frames. -/
theorem c7_counterexample :
    dayCycleDispatches (fun _ => (none : Option Nat)) [SourceEntry.str "a"] =
      [] := rfl

/-- C7 witness: with two failing candidates the cycle dispatches nothing. -/
theorem c7_witness :
    dayCycleDispatches (fun _ => (none : Option (List Nat)))
      [SourceEntry.str "a", SourceEntry.str "b"] = [] :=
  (c7_all_fail_no_dispatch _ _).mpr fun _ _ => rfl

/-! ## C8: the remote-configuration whitelist -/

/-- A key outside the processed key list is never touched by the merge fold. -/
theorem foldl_overwrite_not_mem (remote : String → Option α) :
    ∀ (keys : List String) (config : String → Option α) (q : String), q ∉ keys →
      keys.foldl (overwriteKey remote) config q = config q := by
  intro keys
  induction keys with
  | nil => intro config q _; rfl
  | cons key rest ih =>
    intro config q hq
    have hqk : q ≠ key := fun h => hq (by simp [h])
    rw [List.foldl_cons, ih _ q (fun h => hq (by simp [h]))]
    cases hr : remote key with
    | none => simp [overwriteKey, hr]
    | some v => simp [overwriteKey, hr, hqk]

/-- A key inside the processed list ends up holding the remote value when the
remote document has the key, and the base value otherwise. -/
theorem foldl_overwrite_mem (remote : String → Option α) :
    ∀ keys : List String, keys.Nodup →
      ∀ (config : String → Option α) (q : String), q ∈ keys →
        keys.foldl (overwriteKey remote) config q =
          match remote q with
          | some v => some v
          | none => config q := by
  intro keys
  induction keys with
  | nil => intro _ config q hq; simp at hq
  | cons key rest ih =>
    intro hnd config q hq
    rw [List.foldl_cons]
    rcases List.mem_cons.mp hq with hqk | hqr
    · subst hqk
      have hqnr : q ∉ rest := (List.nodup_cons.mp hnd).1
      rw [foldl_overwrite_not_mem remote rest _ q hqnr]
      cases hr : remote q with
      | none => simp [overwriteKey, hr]
      | some v => simp [overwriteKey, hr]
    · have hqk : q ≠ key := fun h => (List.nodup_cons.mp hnd).1 (h ▸ hqr)
      rw [ih (List.nodup_cons.mp hnd).2 _ q hqr]
      cases hr : remote q with
      | some v => simp
      | none =>
        cases hr2 : remote key with
        | none => simp [overwriteKey, hr2]
        | some v => simp [overwriteKey, hr2, hqk]

/-- C8 (amended): the merge overwrites exactly the whitelisted keys that are
present in the remote document — `active_start`, `active_end`, `sources`,
`random`, `no_repeat_window`, `width`, `height`, `crop`, `crop_origin` — and
every other key is left unchanged.  The fallback logo key `system_logo` is NOT
in the whitelist (nor is `targets`), so a remote document can never override
it. -/
theorem c8_remote_whitelist (config remote : String → Option α) (key : String) :
    (key ∉ whitelistKeys → mergeRemote config remote key = config key) ∧
    (∀ v, key ∈ whitelistKeys → remote key = some v →
      mergeRemote config remote key = some v) ∧
    (key ∈ whitelistKeys → remote key = none →
      mergeRemote config remote key = config key) ∧
    "system_logo" ∉ whitelistKeys ∧ "targets" ∉ whitelistKeys := by
  refine ⟨fun h => foldl_overwrite_not_mem remote whitelistKeys config key h,
    fun v hmem hr => ?_, fun hmem hr => ?_, by decide, by decide⟩
  · rw [mergeRemote,
      foldl_overwrite_mem remote whitelistKeys (by decide) config key hmem, hr]
  · rw [mergeRemote,
      foldl_overwrite_mem remote whitelistKeys (by decide) config key hmem, hr]

/-- C8 counterexample to the claim as stated: a remote document carrying
`system_logo` does not override the base configuration's (absent) value — the
merged value stays `none` even though the remote value is `some 7` — while the
claim lists the fallback logo among the overwritten whitelisted keys. -/
theorem c8_counterexample :
    mergeRemote (fun _ => (none : Option Nat))
      (fun k => if k = "system_logo" then some 7 else none) "system_logo" = none ∧
    (fun k => if k = "system_logo" then some (7 : Nat) else none) "system_logo" =
      some 7 := by
  exact ⟨by decide, by decide⟩

/-- C8 witness: an arbitrary unknown key (`brightness`) is never overridden. -/
theorem c8_witness :
    "brightness" ∉ whitelistKeys ∧
      mergeRemote (fun _ => some (1 : Nat)) (fun _ => some (2 : Nat))
        "brightness" = some 1 :=
  ⟨by decide, (c8_remote_whitelist (fun _ => some 1) (fun _ => some 2)
    "brightness").1 (by decide)⟩

/-! ## C9: the empty-source-list crash in randomized mode -/

/-- C9: with an empty source list and randomization enabled, the selection
step of a day cycle does not complete: the candidate list is empty even after
the exhaustion reset, so `random.choices([], weights=[], k=1)` raises
`ValueError` — uncaught by the main loop, which handles only
`KeyboardInterrupt`, so the process terminates.  This contradicts the claim
(and the spec's intent) that the steady-state cycle is total. -/
theorem c9_empty_sources_error (k choice : Nat) (queue : List Nat) :
    selectStep k (assignShares []) queue choice =
      Except.error "ValueError: total of weights must be greater than zero" := rfl

/-! ## C6: the recency window -/

/-- The bounded deque append keeps exactly the last `k` elements of the
appended sequence. -/
theorem dequeAppend_eq_lastN (k : Nat) (q : List Nat) (x : Nat) :
    dequeAppend k q x = lastN k (q ++ [x]) := by
  simp only [dequeAppend, lastN]
  split
  · rfl
  · rw [Nat.sub_eq_zero_of_le (by omega), List.drop_zero]

/-- Length of the last-`k` suffix. -/
theorem lastN_length (k : Nat) (l : List Nat) : (lastN k l).length = min k l.length := by
  unfold lastN
  rw [List.length_drop]
  omega

/-- Taking the last `k` before appending does not change the last `k` of the
extended sequence. -/
theorem lastN_append_lastN (k : Nat) (l m : List Nat) :
    lastN k (lastN k l ++ m) = lastN k (l ++ m) := by
  unfold lastN
  simp only [List.length_append, List.length_drop]
  rw [← List.drop_append_of_le_length (show l.length - k ≤ l.length by omega),
    List.drop_drop]
  congr 1
  omega

/-- Pigeonhole: a queue shorter than `n` misses some index below `n`. -/
theorem exists_index_not_mem (n : Nat) (queue : List Nat) (h : queue.length < n) :
    ∃ i, i < n ∧ i ∉ queue := by
  by_contra hcon
  push_neg at hcon
  have hsub : List.range n ⊆ queue := fun i hi => hcon i (List.mem_range.mp hi)
  have hle := ((List.nodup_range n).subperm hsub).length_le
  rw [List.length_range] at hle
  omega

/-- Element `i` of the enumeration is the pair `(n + i, l[i])`. -/
theorem enumFromIdx_getElem? (l : List α) :
    ∀ (n i : Nat), (enumFromIdx n l)[i]? = l[i]?.map fun a => (n + i, a) := by
  induction l with
  | nil => intro n i; simp [enumFromIdx]
  | cons x xs ih =>
    intro n i
    cases i with
    | zero => simp [enumFromIdx]
    | succ i =>
      simp only [enumFromIdx, List.getElem?_cons_succ]
      rw [ih (n + 1) i, show n + 1 + i = n + (i + 1) from by omega]

/-- Membership in the zero-based enumeration is exactly indexed lookup. -/
theorem mem_enumFromIdx_iff (l : List α) (i : Nat) (a : α) :
    (i, a) ∈ enumFromIdx 0 l ↔ l[i]? = some a := by
  rw [List.mem_iff_getElem?]
  constructor
  · rintro ⟨m, hm⟩
    rw [enumFromIdx_getElem? l 0 m] at hm
    cases hl : l[m]? with
    | none => rw [hl] at hm; simp at hm
    | some b =>
      rw [hl] at hm
      simp only [Option.map_some', Option.some.injEq, Prod.mk.injEq] at hm
      obtain ⟨h1, h2⟩ := hm
      have h3 : m = i := by omega
      subst h3
      rw [hl, h2]
  · intro h
    exact ⟨i, by rw [enumFromIdx_getElem? l 0 i, h]; simp⟩

/-- A pair is an available candidate exactly when it is an indexed entry of
the source list whose index is not in the recency queue. -/
theorem mem_availablePairs (sources : List SourceEntry) (queue : List Nat)
    (i : Nat) (s : SourceEntry) :
    (i, s) ∈ availablePairs sources queue ↔ sources[i]? = some s ∧ i ∉ queue := by
  unfold availablePairs
  rw [List.mem_filter, mem_enumFromIdx_iff]
  simp

/-- With the queue shorter than the source list, filtering never empties the
candidate list: the exhaustion reset cannot fire. -/
theorem availableSources_ne_nil (sources : List SourceEntry) (queue : List Nat)
    (h : queue.length < sources.length) :
    availableSources sources queue ≠ [] := by
  obtain ⟨i, hi, hnq⟩ := exists_index_not_mem sources.length queue h
  intro hcon
  have hmem : (i, sources.get ⟨i, hi⟩) ∈ availablePairs sources queue :=
    (mem_availablePairs sources queue i _).mpr ⟨by simp, hnq⟩
  have hmem2 : sources.get ⟨i, hi⟩ ∈ availableSources sources queue :=
    List.mem_map.mpr ⟨(i, sources.get ⟨i, hi⟩), hmem, rfl⟩
  rw [hcon] at hmem2
  exact (List.not_mem_nil _) hmem2

/-- Every available candidate is a source entry. -/
theorem mem_of_mem_availableSources (sources : List SourceEntry) (queue : List Nat)
    (s : SourceEntry) (h : s ∈ availableSources sources queue) : s ∈ sources := by
  obtain ⟨⟨i, s2⟩, hmem, rfl⟩ := List.mem_map.mp h
  exact List.mem_iff_getElem?.mpr
    ⟨i, ((mem_availablePairs sources queue i s2).mp hmem).1⟩

/-- A nonempty list of positive weights has positive total weight. -/
theorem weights_sum_ne_zero (l : List SourceEntry) (hne : l ≠ [])
    (hw : ∀ s ∈ l, weight s ≠ 0) : (l.map weight).sum ≠ 0 := by
  cases l with
  | nil => exact absurd rfl hne
  | cons a as =>
    simp only [List.map_cons, List.sum_cons]
    have := hw a (by simp)
    omega

/-- On a duplicate-free list, `list.index` of the entry at position `i` is `i`. -/
theorem list_index_getElem? (l : List SourceEntry) (hnd : l.Nodup) :
    ∀ (i : Nat) (s : SourceEntry), l[i]? = some s → list_index s l = i := by
  induction l with
  | nil => intro i s h; simp at h
  | cons x xs ih =>
    intro i s h
    cases i with
    | zero =>
      simp only [List.getElem?_cons_zero, Option.some.injEq] at h
      rw [list_index, if_pos h]
    | succ i =>
      simp only [List.getElem?_cons_succ] at h
      have hxs : x ≠ s := by
        intro hx
        subst hx
        exact (List.nodup_cons.mp hnd).1 (List.mem_iff_getElem?.mpr ⟨i, h⟩)
      rw [list_index, if_neg hxs, ih (List.nodup_cons.mp hnd).2 i s h]

/-- When the candidate list is nonempty and its total weight is positive, the
selection step reduces in closed form: no reset, the candidate at the drawn
position is selected, its first-match index recorded and appended. -/
theorem selectStep_eq (k : Nat) (sources : List SourceEntry) (queue : List Nat)
    (choice : Nat) (hne : availableSources sources queue ≠ [])
    (hsum : ((availableSources sources queue).map weight).sum ≠ 0) :
    selectStep k sources queue choice =
      Except.ok
        ((availableSources sources queue).getD
            (choice % (availableSources sources queue).length) (SourceEntry.str ""),
          list_index
            ((availableSources sources queue).getD
              (choice % (availableSources sources queue).length) (SourceEntry.str ""))
            sources,
          dequeAppend k queue
            (list_index
              ((availableSources sources queue).getD
                (choice % (availableSources sources queue).length)
                (SourceEntry.str "")) sources)) := by
  have hE : (availableSources sources queue).isEmpty = false :=
    List.isEmpty_eq_false.mpr hne
  simp only [selectStep, hE, Bool.false_eq_true, if_false, if_neg hsum]

/-- One well-formed selection step: some entry is drawn from the candidates,
its source position is recorded, the recorded position is outside the queue,
and the queue is extended FIFO-style. -/
theorem selectStep_spec (k : Nat) (sources : List SourceEntry) (queue : List Nat)
    (choice : Nat) (hnd : sources.Nodup) (hkn : k < sources.length)
    (hw : ∀ s ∈ sources, weight s ≠ 0) (hq : queue.length ≤ k) :
    ∃ sel idx,
      selectStep k sources queue choice =
        Except.ok (sel, idx, dequeAppend k queue idx) ∧
      sel ∈ availableSources sources queue ∧
      sources[idx]? = some sel ∧ idx ∉ queue := by
  have hne : availableSources sources queue ≠ [] :=
    availableSources_ne_nil sources queue (by omega)
  have hsum : ((availableSources sources queue).map weight).sum ≠ 0 :=
    weights_sum_ne_zero _ hne fun s hs =>
      hw s (mem_of_mem_availableSources sources queue s hs)
  have hlen : 0 < (availableSources sources queue).length := List.length_pos.mpr hne
  have hmod : choice % (availableSources sources queue).length <
      (availableSources sources queue).length := Nat.mod_lt _ hlen
  have hlenp : choice % (availableSources sources queue).length <
      (availablePairs sources queue).length := by
    have h2 : (availableSources sources queue).length =
        (availablePairs sources queue).length := by
      unfold availableSources
      rw [List.length_map]
    omega
  have hsel : (availableSources sources queue).get
      ⟨choice % (availableSources sources queue).length, hmod⟩ =
      ((availablePairs sources queue).get
        ⟨choice % (availableSources sources queue).length, hlenp⟩).2 := by
    unfold availableSources
    simp
  have hprmem : (availablePairs sources queue).get
      ⟨choice % (availableSources sources queue).length, hlenp⟩ ∈
      availablePairs sources queue := List.get_mem _ _ _
  have hpair := (mem_availablePairs sources queue _ _).mp hprmem
  have hidx := list_index_getElem? sources hnd _ _ hpair.1
  simp only [List.get_eq_getElem] at hsel hpair hidx
  refine ⟨_, _, ?_, ?_, hpair.1, hpair.2⟩
  · rw [selectStep_eq k sources queue choice hne hsum,
      List.getD_eq_getElem _ _ hmod]
    rw [hsel, hidx]
  · rw [← hsel]
    exact List.getElem_mem hmod

/-- Core invariant of the selection run: the index recorded at step `j` is
never among the last `k` indices recorded before it (counting what was already
in the starting queue). -/
theorem runSelect_not_mem_window (k : Nat) (sources : List SourceEntry)
    (hnd : sources.Nodup) (hkn : k < sources.length)
    (hw : ∀ s ∈ sources, weight s ≠ 0) :
    ∀ (cs queue : List Nat), queue.length ≤ k →
      ∀ j (hj : j < (runSelect k sources queue cs).length),
        (runSelect k sources queue cs).get ⟨j, hj⟩ ∉
          lastN k (queue ++ (runSelect k sources queue cs).take j) := by
  intro cs
  induction cs with
  | nil => intro queue hq j hj; simp [runSelect] at hj
  | cons c cs ih =>
    intro queue hq j hj
    obtain ⟨sel, idx, heq, hmem, hsrc, hnotin⟩ :=
      selectStep_spec k sources queue c hnd hkn hw hq
    have hrun : runSelect k sources queue (c :: cs) =
        idx :: runSelect k sources (dequeAppend k queue idx) cs := by
      rw [runSelect, heq]
    have hq2 : (dequeAppend k queue idx).length ≤ k := by
      rw [dequeAppend_eq_lastN, lastN_length]
      omega
    cases j with
    | zero =>
      have hlq : lastN k queue = queue := by
        unfold lastN
        rw [Nat.sub_eq_zero_of_le hq, List.drop_zero]
      simp only [hrun, List.get_eq_getElem, List.getElem_cons_zero, List.take_zero,
        List.append_nil, hlq]
      exact hnotin
    | succ j =>
      have hj2 : j < (runSelect k sources (dequeAppend k queue idx) cs).length := by
        rw [hrun] at hj
        simpa using hj
      have hih := ih (dequeAppend k queue idx) hq2 j hj2
      have hset : lastN k (dequeAppend k queue idx ++
          (runSelect k sources (dequeAppend k queue idx) cs).take j) =
          lastN k (queue ++ idx ::
            (runSelect k sources (dequeAppend k queue idx) cs).take j) := by
        rw [dequeAppend_eq_lastN, lastN_append_lastN, List.append_assoc,
          List.singleton_append]
      rw [hset] at hih
      simp only [List.get_eq_getElem] at hih
      simp only [hrun, List.get_eq_getElem, List.getElem_cons_succ,
        List.take_succ_cons]
      exact hih

/-- C6 (amended, assuming pairwise-distinct source entries): with
`0 < k < sourceCount` and positive weights, (a) a successful selection step
never resets (the candidate list is nonempty), draws an entry from the
candidates (whose indices are outside the window), records the drawn entry's
own index — first-match lookup equals the drawn position only without
duplicates — and appends it FIFO-style keeping at most `k` entries; and
(b) along any run started from an empty window, no recorded source index
reappears within `k` consecutive selections. -/
theorem c6_recency_window (k : Nat) (sources : List SourceEntry)
    (hnd : sources.Nodup) (hk0 : 0 < k) (hkn : k < sources.length)
    (hw : ∀ s ∈ sources, weight s ≠ 0) :
    (∀ (queue : List Nat) (choice : Nat) (sel : SourceEntry) (idx : Nat)
        (q2 : List Nat), queue.length ≤ k →
      selectStep k sources queue choice = Except.ok (sel, idx, q2) →
        availableSources sources queue ≠ [] ∧
        sel ∈ availableSources sources queue ∧
        sources[idx]? = some sel ∧
        idx ∉ queue ∧
        q2 = dequeAppend k queue idx ∧
        q2.length ≤ k) ∧
    (∀ (cs : List Nat) (i j : Nat) (hij : i < j) (hjk : j - i ≤ k)
        (hj : j < (runSelect k sources [] cs).length),
      (runSelect k sources [] cs).get ⟨i, Nat.lt_trans hij hj⟩ ≠
        (runSelect k sources [] cs).get ⟨j, hj⟩) := by
  constructor
  · intro queue choice sel idx q2 hq hstep
    obtain ⟨sel2, idx2, heq, hmem, hsrc, hnotin⟩ :=
      selectStep_spec k sources queue choice hnd hkn hw hq
    rw [heq] at hstep
    have h3 : sel2 = sel ∧ idx2 = idx ∧ dequeAppend k queue idx2 = q2 := by
      cases hstep
      exact ⟨rfl, rfl, rfl⟩
    obtain ⟨rfl, rfl, rfl⟩ := h3
    refine ⟨availableSources_ne_nil sources queue (by omega), hmem, hsrc, hnotin,
      rfl, ?_⟩
    rw [dequeAppend_eq_lastN, lastN_length]
    omega
  · intro cs i j hij hjk hj
    have hi : i < (runSelect k sources [] cs).length := Nat.lt_trans hij hj
    have hmain := runSelect_not_mem_window k sources hnd hkn hw cs []
      (by simp) j hj
    intro hcon
    apply hmain
    rw [← hcon]
    have htlen : ((runSelect k sources [] cs).take j).length = j := by
      rw [List.length_take]
      omega
    have hgt : (lastN k ((runSelect k sources [] cs).take j))[i - (j - k)]? =
        some ((runSelect k sources [] cs).get ⟨i, hi⟩) := by
      unfold lastN
      rw [htlen, List.getElem?_drop,
        show j - k + (i - (j - k)) = i from by omega,
        List.getElem?_take_of_lt hij, List.getElem?_eq_getElem hi]
      simp
    simp only [List.nil_append]
    exact List.mem_iff_getElem?.mpr ⟨i - (j - k), hgt⟩

/-- C6 counterexample to the claim as stated: with two EQUAL bare entries and
`k = 1`, drawing the entry at position 1 records `sources.index(entry) = 0`
(first match), so the run `[1, 1]` records index 0 twice in a row — the drawn
index is not the appended one and an index reappears inside the window even
though no exhaustion reset fired (the candidate list stayed nonempty). -/
theorem c6_counterexample :
    runSelect 1 [SourceEntry.str "a", SourceEntry.str "a"] [] [1, 1] = [0, 0] ∧
    availableSources [SourceEntry.str "a", SourceEntry.str "a"] [0] ≠ [] := by
  exact ⟨by decide, by decide⟩

/-- C6 witness: two distinct entries, `k = 1`: consecutive selections record
distinct indices. -/
theorem c6_witness :
    (runSelect 1 [SourceEntry.str "a", SourceEntry.str "b"] [] [0, 0]).get
        ⟨0, by decide⟩ ≠
      (runSelect 1 [SourceEntry.str "a", SourceEntry.str "b"] [] [0, 0]).get
        ⟨1, by decide⟩ :=
  (c6_recency_window 1 [SourceEntry.str "a", SourceEntry.str "b"]
    (by decide) (by decide) (by decide) (by decide)).2 [0, 0] 0 1
    (by decide) (by decide) (by decide)

end Billboard
